import Mathlib

/-!
Shallow embedding of the rule-30 validator core
(src/validator/src/validator/mod.rs) together with proofs about its chunk
scheduler, exchange workers, boundary reconciler and round coordinator.

Machine integers are modelled as Nat, with explicit reductions mod 2 ^ 64
or mod 2 ^ 8 where Rust wrapping or truncation occurs. Operations that
panic in Rust (integer division by zero, out-of-range slicing) are
modelled as Option-valued functions returning none at the panicking
inputs.
-/

namespace Rule30

/-- Validator state persisted between rounds (struct ValidatorState,
mod.rs lines 50-55): round counter, peer identity list, score vector.
Identities and scores are abstracted to Nat. -/
structure VState where
  step : Nat
  hotkeys : List Nat
  scores : List Nat
deriving DecidableEq

/-- Round workload, from do_step line 275: byte_count = step / 4 + 1. -/
def byteCount (step : Nat) : Nat := step / 4 + 1

/-- Chunk size, from do_step lines 277-281. A connection count of zero
takes the even branch, where the code divides byte_count by the
connection count unconditionally, so it panics with a division by zero;
that panic is modelled as none. -/
def chunk_size (byte_count connection_count : Nat) : Option Nat :=
  if connection_count % 2 = 0 then
    if connection_count = 0 then none
    else some (byte_count / connection_count + 1)
  else some (byte_count / connection_count)

/-- Byte range handed to the worker for connection index i, from the
dispatch loop at do_step line 287. -/
def chunk_assignment (i cs : Nat) : Nat × Nat := (i * cs, (i + 1) * cs)

/-- All byte ranges handed out in one round, in connection iteration
order (the enumerate loop at do_step lines 284-288). -/
def round_assignments (n cs : Nat) : List (Nat × Nat) :=
  (List.range n).map fun i => chunk_assignment i cs

/-- Net effect of one worker overwriting consecutive row bytes
start, ..., start + len - 1 with the bytes its peer sends back; resp
gives the byte the peer returns for each absolute offset. -/
def overwrite (resp : Nat → Nat) (row : List Nat) (start len : Nat) :
    List Nat :=
  (List.range len).foldl (fun r j => r.set (start + j) (resp (start + j))) row

/-- Exchange worker, from handle_connection (mod.rs lines 233-246):
buffer_size = min (stop - start) (8 * 4 * 512); the iteration count
(stop - start) / buffer_size panics with a division by zero when
buffer_size = 0, modelled as none. The i-th sub-round writes the range
from start + i * buffer_size to start + (i + 1) * buffer_size to the
socket and reads the same number of bytes back into it, so the net
effect on the row is overwriting the first iterations * buffer_size
bytes of the assigned range with the peer responses. -/
def handle_connection (resp : Nat → Nat) (row : List Nat)
    (start stop : Nat) : Option (List Nat) :=
  let buffer_size := min (stop - start) (8 * 4 * 512)
  if buffer_size = 0 then none
  else some (overwrite resp row start ((stop - start) / buffer_size * buffer_size))

/-- The sub-ranges handle_connection exchanges, one per sub-round, in
order (mod.rs lines 234-241); none models the division-by-zero panic of
the iteration count when the assigned range is empty. -/
def sub_ranges (start stop : Nat) : Option (List (Nat × Nat)) :=
  let buffer_size := min (stop - start) (8 * 4 * 512)
  if buffer_size = 0 then none
  else some ((List.range ((stop - start) / buffer_size)).map
    fun i => (start + i * buffer_size, start + (i + 1) * buffer_size))

/-- Membership of a byte offset in one of a list of half-open ranges. -/
def covers (rs : List (Nat × Nat)) (x : Nat) : Prop :=
  ∃ p ∈ rs, p.1 ≤ x ∧ x < p.2

instance (rs : List (Nat × Nat)) (x : Nat) : Decidable (covers rs x) :=
  List.decidableBEx _ rs

/-- Net effect of dispatching one worker per live connection (do_step
lines 284-290). The workers mutate pairwise disjoint ranges of the shared
row, so the concurrent execution is modelled by folding the workers in
connection index order. The threadpool crate catches a panic raised
inside a job and join still returns, so a worker whose handle_connection
panics leaves the row unmodified, modelled by getD returning the
unchanged row when the worker result is none. -/
def dispatch (resp : Nat → Nat → Nat) (row : List Nat) (n cs : Nat) :
    List Nat :=
  (List.range n).foldl
    (fun r i =>
      (handle_connection (resp i) r (chunk_assignment i cs).1
        (chunk_assignment i cs).2).getD r)
    row

/-- One round of the step coordinator after the connection phase
(do_step, mod.rs lines 274-295), given the live connection count n and
the peer responses resp: compute the chunk size (none when that panics),
dispatch the exchange workers, join, then increment the round counter and
return the state to be persisted together with the final row. No
reconciliation appears here: normalize_response_data has no caller
anywhere in the source. -/
def do_step (resp : Nat → Nat → Nat) (st : VState) (row : List Nat)
    (n : Nat) : Option (VState × List Nat) :=
  match chunk_size (byteCount st.step) n with
  | none => none
  | some cs => some ({ st with step := st.step + 1 }, dispatch resp row n cs)

/-- Score-resize block of Validator::sync (mod.rs lines 206-211): when
the stored hotkey list length differs from the freshly fetched neuron
list length, scores is replaced by a zero vector of the new length with
the old scores copied onto its prefix. Slicing the new vector up to
scores.len() panics when the directory shrank below the score count,
modelled as none. The stored hotkey list itself is never updated by this
block, so it is returned unchanged. -/
def sync_update (hotkeys scores neurons : List Nat) :
    Option (List Nat × List Nat) :=
  if hotkeys.length ≠ neurons.length then
    if scores.length ≤ neurons.length then
      some (hotkeys, scores ++ List.replicate (neurons.length - scores.length) 0)
    else none
  else some (hotkeys, scores)

/-- Initial state built by Validator::new (mod.rs lines 106-113): round
counter 1, hotkeys from the directory, scores zero-filled to the same
length. -/
def initial_state (hotkeys : List Nat) : VState :=
  { step := 1, hotkeys := hotkeys, scores := List.replicate hotkeys.length 0 }

/-- Local automaton rule, from rule_30 (mod.rs lines 310-312), on u64:
left shifts wrap mod 2 ^ 64. -/
def rule_30 (a : Nat) : Nat :=
  a ^^^ (((a <<< 1) % 2 ^ 64) ||| ((a <<< 2) % 2 ^ 64))

/-- Boundary fix-up, from normalize_pair (mod.rs lines 314-330). Inputs
are byte values; the widening of u8 to u64 preserves the value, the final
casts back to u8 truncate mod 2 ^ 8, and the u64 left shift reinjecting
the carry wraps mod 2 ^ 64. -/
def normalize_pair (a b : Nat) : Nat × Nat :=
  let carry := a &&& 1
  let a1 := a >>> 1
  let b1 := (carry <<< 63) ||| b
  let a2 := rule_30 a1
  let b2 := rule_30 b1
  let msb := b2 >>> 63
  let b3 := b2 &&& ((1 <<< 63) - 1)
  let a3 := ((a2 <<< 1) % 2 ^ 64) ||| msb
  (a3 % 2 ^ 8, b3 % 2 ^ 8)

/-- First reconciliation step as the spec words it (spec section 4.5):
shift A right by one bit, carrying its low bit into the high bit of the
64-bit working word holding B. Written with arithmetic in place of the
bit operations of the source. -/
def spec_shift_in (a b : Nat) : Nat × Nat :=
  (a / 2, (a % 2) * 2 ^ 63 ||| b)

/-- Fixed bitwise rule of the spec, x XOR ((x shl 1) OR (x shl 2)), on
the 64-bit working width. -/
def spec_rule (x : Nat) : Nat :=
  x ^^^ ((x * 2 % 2 ^ 64) ||| (x * 4 % 2 ^ 64))

/-- Third and fourth reconciliation steps as the spec words them: move
the top bit of B out as a carry, masking it off B, then shift A left by
one and OR the carry in. -/
def spec_carry_out (a b : Nat) : Nat × Nat :=
  ((a * 2 % 2 ^ 64) ||| (b / 2 ^ 63), b % 2 ^ 63)

/-- Boundary fix-up assembled exactly from the spec steps of section
4.5, for comparison with normalize_pair. -/
def normalize_pair_spec (a b : Nat) : Nat × Nat :=
  let s := spec_shift_in a b
  let t := spec_carry_out (spec_rule s.1) (spec_rule s.2)
  (t.1 % 2 ^ 8, t.2 % 2  ^ 8)

/-- Reconciliation loop of normalize_response_data (mod.rs lines
335-353), as a structural recursion carrying the current left lane: each
iteration corrects the seam between two adjacent lanes in place and
appends the fully corrected left lane to the output accumulator. Returns
the final lane list together with the accumulated flat output. -/
def normalize_loop (l : List Nat) : List (List Nat) → List (List Nat) × List Nat
  | [] => ([l], [])
  | l2 :: rest =>
    let p := normalize_pair (l.getD 31 0) (l2.getD 0 0)
    let c := l.set 31 p.1
    let r := normalize_loop (l2.set 0 p.2) rest
    (c :: r.1, c ++ r.2)

/-- Boundary reconciler, from normalize_response_data (mod.rs lines
309-361): corrects every lane seam in place and returns the corrected
lane list together with the flat normalized output, which receives every
corrected left lane during the loop plus, when there is more than one
lane, the final lane as it stands after the pass. On an empty lane list
the loop bound lists.len() - 1 underflows and the code panics, modelled
as none. -/
def normalize_response_data (lists : List (List Nat)) :
    Option (List (List Nat) × List Nat) :=
  match lists with
  | [] => none
  | l :: ls =>
    let r := normalize_loop l ls
    some (r.1, if ls = [] then r.2 else r.2 ++ r.1.getLastD [])

/-- Corrected lane i computed independently of every other boundary,
from the original pre-pass lanes only: byte 31 is corrected using the
seam with lane i + 1 when that lane exists, and byte 0 is corrected
using the seam with lane i - 1 when i > 0, both applied to the raw edge
bytes of the input lanes. Used to state that the sequential pass of
normalize_response_data has no cross-boundary data flow. -/
def indepLane (L : List (List Nat)) (i : Nat) : List Nat :=
  let l := L.getD i []
  let l1 :=
    if i + 1 < L.length then
      l.set 31 (normalize_pair (l.getD 31 0) ((L.getD (i + 1) []).getD 0 0)).1
    else l
  if 0 < i then
    l1.set 0 (normalize_pair ((L.getD (i - 1) []).getD 31 0) (l.getD 0 0)).2
  else l1

/-- Modelled from the spec: section 4.5 views the row as a sequence of
fixed-width 32-byte lanes. The source contains no conversion from the
row to lanes because normalize_response_data is never called; this
definition supplies that view (for rows whose length is a multiple of
32) in order to state that fact about do_step. -/
def toLanes (row : List Nat) : List (List Nat) :=
  (List.range (row.length / 32)).map fun i => (row.drop (32 * i)).take 32

/-- CLAIM C2: the claim says a round with zero live connections skips
the chunk-size computation and still completes. The code instead reaches
the even branch of the chunk-size computation and divides byte_count by
the zero connection count, a panic, modelled as none: the round never
completes. -/
theorem do_step_zero_connections_panics (resp : Nat → Nat → Nat)
    (st : VState) (row : List Nat) : do_step resp st row 0 = none := rfl

/-- CLAIM C3: the claim says len(scores) = len(hotkeys) at all times and
resizing preserves prefixes and zero-fills. At the concrete input with
stored hotkeys [7], scores [5] and a directory grown to [7, 8], the sync
resize block returns hotkeys [7] unchanged with scores [5, 0]: the old
score is preserved and the new slot zero-filled, but the stored hotkey
list is never updated, so the two lengths differ afterwards. The
initialization equality is also evaluated for contrast. -/
theorem sync_update_breaks_length_invariant :
    sync_update [7] [5] [7, 8] = some ([7], [5, 0]) ∧
    ([7] : List Nat).length ≠ ([5, 0] : List Nat).length ∧
    (initial_state [7]).scores.length = (initial_state [7]).hotkeys.length := by
  refine ⟨rfl, by decide, rfl⟩

/-- CLAIM C4: for round counter s and live connection count n ≥ 1 the
scheduler computes byte_count = s / 4 + 1, chunk_size = byte_count / n + 1
when n is even and byte_count / n when n is odd, and hands the i-th
connection in iteration order exactly the byte range from i * chunk_size
to (i + 1) * chunk_size. -/
theorem scheduler_formulas (s n : Nat) (h : 1 ≤ n) :
    byteCount s = s / 4 + 1 ∧
    chunk_size (byteCount s) n =
      some (if n % 2 = 0 then byteCount s / n + 1 else byteCount s / n) ∧
    round_assignments n
        (if n % 2 = 0 then byteCount s / n + 1 else byteCount s / n) =
      (List.range n).map fun i =>
        (i * (if n % 2 = 0 then byteCount s / n + 1 else byteCount s / n),
         (i + 1) * (if n % 2 = 0 then byteCount s / n + 1 else byteCount s / n)) := by
  refine ⟨rfl, ?_, rfl⟩
  unfold chunk_size
  split
  · rw [if_neg (by omega)]
  · rfl

/-- Witness for scheduler_formulas at s = 4, n = 3. -/
theorem scheduler_formulas_witness :
    byteCount 4 = 4 / 4 + 1 ∧
    chunk_size (byteCount 4) 3 =
      some (if 3 % 2 = 0 then byteCount 4 / 3 + 1 else byteCount 4 / 3) ∧
    round_assignments 3
        (if 3 % 2 = 0 then byteCount 4 / 3 + 1 else byteCount 4 / 3) =
      (List.range 3).map fun i =>
        (i * (if 3 % 2 = 0 then byteCount 4 / 3 + 1 else byteCount 4 / 3),
         (i + 1) * (if 3 % 2 = 0 then byteCount 4 / 3 + 1 else byteCount 4 / 3)) :=
  scheduler_formulas 4 3 (by decide)

/-- CLAIM C5, counterexample: the claim says chunk_size ≥ 1 for every
peer count n ≥ 1 and byte_count ≥ 1, but at byte_count 2 and the odd
peer count 3 the scheduler computes chunk size 0. -/
theorem chunk_size_zero_at_two_bytes_three_peers :
    chunk_size 2 3 = some 0 ∧ ¬ 1 ≤ (0 : Nat) := by
  exact ⟨rfl, by decide⟩

/-- CLAIM C5, amended: for every peer count n ≥ 1 and byte_count B ≥ 1
the chunk assignments are pairwise disjoint and ordered by connection
index, and chunk_size ≥ 1 holds whenever n is even or n ≤ B; when n is
odd and B < n the computed chunk size is 0. -/
theorem chunk_assignments_disjoint_ordered (n B : Nat) (hn : 1 ≤ n)
    (_hB : 1 ≤ B) :
    ∃ cs, chunk_size B n = some cs ∧
      (∀ i j, i < j →
        (chunk_assignment i cs).2 ≤ (chunk_assignment j cs).1) ∧
      ((n % 2 = 0 ∨ n ≤ B) → 1 ≤ cs) := by
  by_cases he : n % 2 = 0
  · refine ⟨B / n + 1, ?_, ?_, fun _ => Nat.succ_le_succ (Nat.zero_le _)⟩
    · unfold chunk_size
      rw [if_pos he, if_neg (by omega : ¬ n = 0)]
    · intro i j hij
      simp only [chunk_assignment]
      exact Nat.mul_le_mul_right _ (by omega)
  · refine ⟨B / n, ?_, ?_, ?_⟩
    · unfold chunk_size
      rw [if_neg he]
    · intro i j hij
      simp only [chunk_assignment]
      exact Nat.mul_le_mul_right _ (by omega)
    · intro hcase
      rcases hcase with he2 | hle
      · exact absurd he2 he
      · exact (Nat.one_le_div_iff (by omega)).mpr hle

/-- Witness for chunk_assignments_disjoint_ordered at n = 2, B = 1. -/
theorem chunk_assignments_disjoint_ordered_witness :
    (1 ≤ 2 ∧ 1 ≤ 1) ∧
    ∃ cs, chunk_size 1 2 = some cs ∧
      (∀ i j, i < j →
        (chunk_assignment i cs).2 ≤ (chunk_assignment j cs).1) ∧
      ((2 % 2 = 0 ∨ 2 ≤ 1) → 1 ≤ cs) :=
  ⟨by decide, chunk_assignments_disjoint_ordered 2 1 (by decide) (by decide)⟩

/-- CLAIM C6: the boundary fix-up is a pure function of the two raw
lane-edge bytes — normalize_pair is a plain function of its two
arguments — and it computes exactly the four steps the spec lists,
assembled independently in normalize_pair_spec: carry the low bit of A
into the high bit of the working word of B while shifting A right, apply
x XOR ((x shl 1) OR (x shl 2)) to both, move the top bit of B out as a
carry into the low bit of A while masking it off B, after shifting A
left by one. -/
theorem normalize_pair_follows_spec_steps (a b : Nat) :
    normalize_pair a b = normalize_pair_spec a b := by
  have hmask : ∀ x : Nat, x &&& 9223372036854775807 = x % 9223372036854775808 := by
    intro x
    have h := Nat.and_pow_two_sub_one_eq_mod x 63
    norm_num at h
    exact h
  simp [normalize_pair, normalize_pair_spec, rule_30, spec_rule,
    spec_shift_in, spec_carry_out, Nat.and_one_is_mod,
    Nat.shiftLeft_eq, Nat.shiftRight_eq_div_pow, hmask,
    Nat.pow_succ, Nat.mul_comm]

/-- CLAIM C10: a zero-size chunk assignment (start = stop) makes
handle_connection compute buffer_size = min 0 16384 = 0 and divide the
range length by it, a panic (modelled as none) rather than a no-op; and
the scheduler really produces such assignments, for example chunk size 0
at byte_count 2 with 3 peers, where every connection receives the empty
range (0, 0). -/
theorem handle_connection_empty_chunk_panics (resp : Nat → Nat)
    (row : List Nat) (s i : Nat) :
    handle_connection resp row s s = none ∧
    chunk_size 2 3 = some 0 ∧
    chunk_assignment i 0 = (0, 0) := by
  refine ⟨?_, rfl, ?_⟩
  · unfold handle_connection
    simp
  · simp [chunk_assignment]

/-- Setting byte 0 of a lane leaves byte 31 unchanged. -/
theorem getD_set_zero_31 (l : List Nat) (a d : Nat) :
    (l.set 0 a).getD 31 d = l.getD 31 d := by
  simp [List.getD, List.getElem?_set_ne (by omega : (0 : Nat) ≠ 31)]

/-- The reconciliation loop returns one corrected lane per input lane. -/
theorem normalize_loop_fst_length (ls : List (List Nat)) :
    ∀ l, (normalize_loop l ls).1.length = ls.length + 1 := by
  induction ls with
  | nil => intro l; rfl
  | cons l2 rest ih => intro l; simp [normalize_loop, ih]

/-- Shifting the independent per-boundary description across the head of
the lane list: corrected lane j of the tail (whose head already received
its byte-0 correction from the head seam) is corrected lane j + 1 of the
whole list. -/
theorem indepLane_shift (l l2 : List Nat) (rest : List (List Nat))
    (j : Nat) :
    indepLane (l2.set 0 (normalize_pair (l.getD 31 0) (l2.getD 0 0)).2 :: rest) j
      = indepLane (l :: l2 :: rest) (j + 1) := by
  match j with
  | 0 =>
    simp only [indepLane, List.getD_cons_zero, List.getD_cons_succ,
      List.length_cons, getD_set_zero_31, Nat.add_sub_cancel]
    by_cases hc : 0 < rest.length
    · rw [if_pos (by omega : 0 + 1 < rest.length + 1),
        if_pos (by omega : 1 + 1 < rest.length + 1 + 1),
        if_neg (by omega : ¬ 0 < 0), if_pos (by omega : 0 < 1)]
      exact List.set_comm _ _ l2 (by omega)
    · rw [if_neg (by omega : ¬ 0 + 1 < rest.length + 1),
        if_neg (by omega : ¬ 1 + 1 < rest.length + 1 + 1),
        if_neg (by omega : ¬ 0 < 0), if_pos (by omega : 0 < 1)]
  | 1 =>
    simp only [indepLane, List.getD_cons_zero, List.getD_cons_succ,
      List.length_cons, getD_set_zero_31, Nat.add_sub_cancel]
    by_cases hc : 1 < rest.length
    · rw [if_pos (by omega : 1 + 1 < rest.length + 1),
        if_pos (by omega : 1 + 1 + 1 < rest.length + 1 + 1),
        if_pos (by omega : 0 < 1), if_pos (by omega : 0 < 1 + 1)]
      simp [getD_set_zero_31]
    · rw [if_neg (by omega : ¬ 1 + 1 < rest.length + 1),
        if_neg (by omega : ¬ 1 + 1 + 1 < rest.length + 1 + 1),
        if_pos (by omega : 0 < 1), if_pos (by omega : 0 < 1 + 1)]
      simp [getD_set_zero_31]
  | k + 2 =>
    have h21 : k + 2 - 1 = k + 1 := rfl
    simp only [indepLane, List.getD_cons_zero, List.getD_cons_succ,
      List.length_cons, getD_set_zero_31, Nat.add_sub_cancel, h21]
    by_cases hc : k + 2 + 1 < rest.length + 1
    · rw [if_pos (by omega : k + 2 + 1 < rest.length + 1),
        if_pos (by omega : k + 2 + 1 + 1 < rest.length + 1 + 1),
        if_pos (by omega : 0 < k + 2), if_pos (by omega : 0 < k + 2 + 1)]
    · rw [if_neg hc,
        if_neg (by omega : ¬ k + 2 + 1 + 1 < rest.length + 1 + 1),
        if_pos (by omega : 0 < k + 2), if_pos (by omega : 0 < k + 2 + 1)]

/-- Pointwise description of the sequential reconciliation pass: lane i
of the result depends only on the raw edge bytes of the original lanes
i - 1, i and i + 1, as computed by indepLane. -/
theorem normalize_loop_pointwise (ls : List (List Nat)) :
    ∀ l i, (normalize_loop l ls).1.getD i [] = indepLane (l :: ls) i := by
  induction ls with
  | nil =>
    intro l i
    match i with
    | 0 => rfl
    | k + 1 =>
      simp [normalize_loop, indepLane, List.getD]
  | cons l2 rest ih =>
    intro l i
    match i with
    | 0 =>
      simp only [normalize_loop, indepLane, List.getD_cons_zero,
        List.getD_cons_succ, List.length_cons]
      rw [if_pos (by omega : 0 + 1 < rest.length + 1 + 1),
        if_neg (by omega : ¬ (0:Nat) < 0)]
    | j + 1 =>
      have h1 : (normalize_loop l (l2 :: rest)).1.getD (j + 1) [] =
          (normalize_loop (l2.set 0 (normalize_pair (l.getD 31 0) (l2.getD 0 0)).2)
            rest).1.getD j [] := by
        simp [normalize_loop]
      rw [h1, ih, indepLane_shift]

/-- The per-lane lengths survive the reconciliation pass. -/
theorem normalize_loop_map_length (ls : List (List Nat)) :
    ∀ l, (normalize_loop l ls).1.map List.length = (l :: ls).map List.length := by
  induction ls with
  | nil => intro l; rfl
  | cons l2 rest ih =>
    intro l
    simp [normalize_loop, ih]

/-- The accumulated output of the reconciliation loop is the
concatenation of every corrected lane except the last. -/
theorem normalize_loop_snd_flatten (ls : List (List Nat)) :
    ∀ l, (normalize_loop l ls).2 = (normalize_loop l ls).1.dropLast.flatten := by
  induction ls with
  | nil => intro l; rfl
  | cons l2 rest ih =>
    intro l
    have hne := normalize_loop_fst_length rest
      (l2.set 0 (normalize_pair (l.getD 31 0) (l2.getD 0 0)).2)
    cases hr : (normalize_loop
        (l2.set 0 (normalize_pair (l.getD 31 0) (l2.getD 0 0)).2) rest).1 with
    | nil => rw [hr] at hne; simp at hne
    | cons x xs =>
      have hs := ih (l2.set 0 (normalize_pair (l.getD 31 0) (l2.getD 0 0)).2)
      simp only [normalize_loop]
      rw [hs, hr]
      simp

/-- Concatenating all lanes but the last and then the last lane gives
the concatenation of all lanes. -/
theorem flatten_dropLast_append_getLastD (L : List (List Nat)) (h : L ≠ []) :
    L.dropLast.flatten ++ L.getLastD [] = L.flatten := by
  induction L with
  | nil => exact absurd rfl h
  | cons x t ih =>
    cases t with
    | nil => simp
    | cons y t2 =>
      have := ih (by simp)
      simp only [List.dropLast_cons₂, List.flatten_cons, List.getLastD_cons,
        List.append_assoc] at this ⊢
      rw [this]

/-- Total byte length of a flat concatenation of 32-byte lanes. -/
theorem flatten_length_of_lane32 (L : List (List Nat))
    (h : ∀ l ∈ L, l.length = 32) : L.flatten.length = 32 * L.length := by
  induction L with
  | nil => rfl
  | cons x t ih =>
    simp only [List.flatten_cons, List.length_append, List.length_cons]
    rw [h x (by simp), ih (fun l hl => h l (by simp [hl]))]
    ring

/-- CLAIM C7: the sequential in-place reconciliation pass produces the
same lanes as computing every boundary pair independently from the
original pre-pass edge bytes: the writes of boundary i (byte 31 of lane
i and byte 0 of lane i + 1) never feed the inputs of boundary i + 1. -/
theorem sequential_pass_equals_independent_pairs (l : List Nat)
    (ls : List (List Nat)) :
    (normalize_loop l ls).1.length = (l :: ls).length ∧
    ∀ i, (normalize_loop l ls).1.getD i [] = indepLane (l :: ls) i :=
  ⟨by simp [normalize_loop_fst_length], normalize_loop_pointwise ls l⟩

/-- CLAIM C8, counterexample: the claim says the output has exactly
32 * k bytes for every input of k ≥ 1 lanes, but on a single lane the
loop runs zero iterations and the final append is guarded by
lists.len() > 1, so the returned normalized result is empty. -/
theorem reconciler_output_empty_on_single_lane :
    normalize_response_data [List.replicate 32 0] =
      some ([List.replicate 32 0], []) ∧
    ([] : List Nat).length ≠ 32 * 1 := by
  exact ⟨rfl, by decide⟩

/-- CLAIM C8, amended: for k ≥ 2 lanes of 32 bytes, the returned
normalized result is the flat concatenation of all corrected lanes (the
final lane appended as it stands after the in-place pass, including its
byte-0 correction) and has exactly 32 * k bytes; for k = 1 the result is
empty. -/
theorem reconciler_output_is_flattened_lanes (lists : List (List Nat))
    (h2 : 2 ≤ lists.length) (h32 : ∀ l ∈ lists, l.length = 32) :
    ∃ lanes out, normalize_response_data lists = some (lanes, out) ∧
      out = lanes.flatten ∧ out.length = 32 * lists.length := by
  match lists, h2 with
  | l :: l2 :: rest, _ =>
    refine ⟨(normalize_loop l (l2 :: rest)).1,
      (normalize_loop l (l2 :: rest)).2 ++
        (normalize_loop l (l2 :: rest)).1.getLastD [], ?_, ?_, ?_⟩
    · simp [normalize_response_data]
    · rw [normalize_loop_snd_flatten]
      refine flatten_dropLast_append_getLastD _ ?_
      have := normalize_loop_fst_length (l2 :: rest) l
      intro hnil
      rw [hnil] at this
      simp at this
    · have h32r : ∀ q ∈ (normalize_loop l (l2 :: rest)).1, q.length = 32 := by
        intro q hq
        have hm : q.length ∈ ((l :: l2 :: rest).map List.length) := by
          rw [← normalize_loop_map_length]
          exact List.mem_map_of_mem _ hq
        obtain ⟨w, hw, hwl⟩ := List.mem_map.mp hm
        rw [← hwl]
        exact h32 w hw
      rw [normalize_loop_snd_flatten,
        flatten_dropLast_append_getLastD _ (by
          have := normalize_loop_fst_length (l2 :: rest) l
          intro hnil
          rw [hnil] at this
          simp at this),
        flatten_length_of_lane32 _ h32r, normalize_loop_fst_length]
      simp

/-- Witness for reconciler_output_is_flattened_lanes on two zero
lanes. -/
theorem reconciler_output_is_flattened_lanes_witness :
    (2 ≤ ([List.replicate 32 0, List.replicate 32 0] : List (List Nat)).length) ∧
    ∃ lanes out,
      normalize_response_data [List.replicate 32 0, List.replicate 32 0] =
        some (lanes, out) ∧ out = lanes.flatten ∧
      out.length = 32 * ([List.replicate 32 0, List.replicate 32 0] :
        List (List Nat)).length :=
  ⟨by decide, reconciler_output_is_flattened_lanes
    [List.replicate 32 0, List.replicate 32 0] (by decide) (by decide)⟩

/-- CLAIM C9, counterexample: the claim says the sub-ranges cover the
whole assigned range, but for the assignment from 0 to 16385 the
iteration count 16385 / 16384 is floored to 1, so the single sub-round
covers only the first 16384 bytes and the final byte 16384 of the range
is never exchanged. -/
theorem subranges_miss_tail_byte :
    sub_ranges 0 16385 = some [(0, 16384)] ∧
    ¬ covers [((0 : Nat), (16384 : Nat))] 16384 ∧ (16384 : Nat) < 16385 := by
  refine ⟨by decide, by decide, by decide⟩

/-- CLAIM C9, amended: for every chunk assignment with stop > start the
worker subdivides the range into sub-rounds of uniform size
min (stop - start) 16384, each inside the assigned range, performing one
write-then-read round per sub-range that overwrites it in place with the
peer bytes; together the sub-ranges cover exactly the first
(stop - start) / buffer_size * buffer_size bytes of the range, which is
the whole range precisely when buffer_size divides the range length, and
otherwise leaves the tail remainder unexchanged. -/
theorem exchange_subranges (resp : Nat → Nat) (row : List Nat)
    (start stop : Nat) (h : start < stop) :
    ∃ rs, sub_ranges start stop = some rs ∧
      (∀ p ∈ rs, p.2 - p.1 = min (stop - start) (8 * 4 * 512) ∧
        p.2 - p.1 ≤ 8 * 4 * 512 ∧ start ≤ p.1 ∧ p.2 ≤ stop) ∧
      (∀ x, covers rs x ↔
        start ≤ x ∧
          x < start + (stop - start) / min (stop - start) (8 * 4 * 512) *
            min (stop - start) (8 * 4 * 512)) ∧
      (min (stop - start) (8 * 4 * 512) ∣ stop - start →
        ∀ x, start ≤ x → x < stop → covers rs x) ∧
      handle_connection resp row start stop =
        some (overwrite resp row start
          ((stop - start) / min (stop - start) (8 * 4 * 512) *
            min (stop - start) (8 * 4 * 512))) := by
  have hbs : 0 < min (stop - start) (8 * 4 * 512) :=
    Nat.lt_min.mpr ⟨by omega, by omega⟩
  refine ⟨(List.range ((stop - start) / min (stop - start) (8 * 4 * 512))).map
    (fun i => (start + i * min (stop - start) (8 * 4 * 512),
      start + (i + 1) * min (stop - start) (8 * 4 * 512))), ?_, ?_, ?_, ?_, ?_⟩
  · unfold sub_ranges
    rw [if_neg hbs.ne']
  · intro p hp
    obtain ⟨i, hi, rfl⟩ := List.mem_map.mp hp
    have hi2 := List.mem_range.mp hi
    have he : (i + 1) * min (stop - start) (8 * 4 * 512) =
        i * min (stop - start) (8 * 4 * 512) + min (stop - start) (8 * 4 * 512) :=
      Nat.succ_mul _ _
    have h2 : (i + 1) * min (stop - start) (8 * 4 * 512) ≤
        (stop - start) / min (stop - start) (8 * 4 * 512) *
          min (stop - start) (8 * 4 * 512) :=
      Nat.mul_le_mul_right _ (by omega)
    have h3 : (stop - start) / min (stop - start) (8 * 4 * 512) *
        min (stop - start) (8 * 4 * 512) ≤ stop - start :=
      Nat.div_mul_le_self _ _
    have h4 : min (stop - start) (8 * 4 * 512) ≤ 8 * 4 * 512 :=
      Nat.min_le_right _ _
    refine ⟨by omega, by omega, by omega, by omega⟩
  · intro x
    constructor
    · rintro ⟨p, hp, hx1, hx2⟩
      obtain ⟨i, hi, rfl⟩ := List.mem_map.mp hp
      have hi2 := List.mem_range.mp hi
      have he : (i + 1) * min (stop - start) (8 * 4 * 512) =
          i * min (stop - start) (8 * 4 * 512) + min (stop - start) (8 * 4 * 512) :=
        Nat.succ_mul _ _
      have h2 : (i + 1) * min (stop - start) (8 * 4 * 512) ≤
          (stop - start) / min (stop - start) (8 * 4 * 512) *
            min (stop - start) (8 * 4 * 512) :=
        Nat.mul_le_mul_right _ (by omega)
      exact ⟨by omega, by omega⟩
    · rintro ⟨hx1, hx2⟩
      refine ⟨(start + (x - start) / min (stop - start) (8 * 4 * 512) *
          min (stop - start) (8 * 4 * 512),
        start + ((x - start) / min (stop - start) (8 * 4 * 512) + 1) *
          min (stop - start) (8 * 4 * 512)), ?_, ?_, ?_⟩
      · refine List.mem_map_of_mem _ (List.mem_range.mpr ?_)
        rw [Nat.div_lt_iff_lt_mul hbs]
        omega
      · have h5 : (x - start) / min (stop - start) (8 * 4 * 512) *
            min (stop - start) (8 * 4 * 512) ≤ x - start :=
          Nat.div_mul_le_self _ _
        omega
      · have he : ((x - start) / min (stop - start) (8 * 4 * 512) + 1) *
            min (stop - start) (8 * 4 * 512) =
            (x - start) / min (stop - start) (8 * 4 * 512) *
              min (stop - start) (8 * 4 * 512) +
              min (stop - start) (8 * 4 * 512) :=
          Nat.succ_mul _ _
        have e1 : (x - start) / min (stop - start) (8 * 4 * 512) *
            min (stop - start) (8 * 4 * 512) +
            (x - start) % min (stop - start) (8 * 4 * 512) = x - start := by
          rw [Nat.mul_comm]
          exact Nat.div_add_mod _ _
        have hm : (x - start) % min (stop - start) (8 * 4 * 512) <
            min (stop - start) (8 * 4 * 512) := Nat.mod_lt _ hbs
        omega
  · intro hd x hx1 hx2
    have hc : (stop - start) / min (stop - start) (8 * 4 * 512) *
        min (stop - start) (8 * 4 * 512) = stop - start :=
      Nat.div_mul_cancel hd
    refine ⟨(start + (x - start) / min (stop - start) (8 * 4 * 512) *
        min (stop - start) (8 * 4 * 512),
      start + ((x - start) / min (stop - start) (8 * 4 * 512) + 1) *
        min (stop - start) (8 * 4 * 512)), ?_, ?_, ?_⟩
    · refine List.mem_map_of_mem _ (List.mem_range.mpr ?_)
      rw [Nat.div_lt_iff_lt_mul hbs]
      omega
    · have h5 : (x - start) / min (stop - start) (8 * 4 * 512) *
          min (stop - start) (8 * 4 * 512) ≤ x - start :=
        Nat.div_mul_le_self _ _
      omega
    · have he : ((x - start) / min (stop - start) (8 * 4 * 512) + 1) *
          min (stop - start) (8 * 4 * 512) =
          (x - start) / min (stop - start) (8 * 4 * 512) *
            min (stop - start) (8 * 4 * 512) +
            min (stop - start) (8 * 4 * 512) :=
        Nat.succ_mul _ _
      have e1 : (x - start) / min (stop - start) (8 * 4 * 512) *
          min (stop - start) (8 * 4 * 512) +
          (x - start) % min (stop - start) (8 * 4 * 512) = x - start := by
        rw [Nat.mul_comm]
        exact Nat.div_add_mod _ _
      have hm : (x - start) % min (stop - start) (8 * 4 * 512) <
          min (stop - start) (8 * 4 * 512) := Nat.mod_lt _ hbs
      omega
  · unfold handle_connection
    rw [if_neg hbs.ne']

/-- Witness for exchange_subranges on the assignment from 0 to 100. -/
theorem exchange_subranges_witness :
    (0 : Nat) < 100 ∧
    ∃ rs, sub_ranges 0 100 = some rs ∧
      (∀ p ∈ rs, p.2 - p.1 = min (100 - 0) (8 * 4 * 512) ∧
        p.2 - p.1 ≤ 8 * 4 * 512 ∧ 0 ≤ p.1 ∧ p.2 ≤ 100) ∧
      (∀ x, covers rs x ↔
        0 ≤ x ∧
          x < 0 + (100 - 0) / min (100 - 0) (8 * 4 * 512) *
            min (100 - 0) (8 * 4 * 512)) ∧
      (min (100 - 0) (8 * 4 * 512) ∣ 100 - 0 →
        ∀ x, 0 ≤ x → x < 100 → covers rs x) ∧
      handle_connection (fun _ => 0) [] 0 100 =
        some (overwrite (fun _ => 0) [] 0
          ((100 - 0) / min (100 - 0) (8 * 4 * 512) *
            min (100 - 0) (8 * 4 * 512))) :=
  ⟨by decide, exchange_subranges (fun _ => 0) [] 0 100 (by decide)⟩

/-- CLAIM C1: the claim says every successful round applies the
reconciliation pass between the worker join and the persistence of the
incremented round counter. The code contains the Boundary Reconciler as
normalize_response_data but never calls it: at round counter 252 with one
live peer answering every byte with 1, the round completes and persists
the exchanged row unchanged, while applying the reconciler to that row
(viewed as two 32-byte lanes) would alter it, so no reconciliation
happened between the join and the persist. -/
theorem do_step_never_reconciles :
    do_step (fun _ _ => 1) ⟨252, [], []⟩ (List.replicate 64 0) 1 =
      some (⟨253, [], []⟩, List.replicate 64 1) ∧
    (normalize_response_data (toLanes (List.replicate 64 1))).map Prod.fst ≠
      some (toLanes (List.replicate 64 1)) := by
  refine ⟨by decide, by decide⟩

end Rule30
